import Mathlib

set_option maxHeartbeats 1000000

/-!
Verification of the streaming JSON field extractor of
src/components/BankingUI.tsx (parsePartialJson, lines 318-352) and of the
last-good-value cache of the TerminalPanel component (lines 386-422).

Strings are modelled as lists of characters.  The two regular expressions

  strict:  "key"\s*:\s*"((?:[^"\\]|\\.)*)"
  loose:   "key"\s*:\s*"((?:[^"\\]|\\.)*)$

are embedded by a deterministic matcher.  This is faithful to the
JavaScript backtracking semantics because the starred alternative is
forced at every position: a character other than a double quote or a
backslash can only be taken by the first alternative, a backslash only
starts the two-character second alternative, and a double quote is taken
by neither.  Hence the greedy star performs maximal munch, and when the
character following the munched run fails the tail of the pattern,
giving tokens back repositions the engine at the start of a token, whose
first character is never a double quote, so backtracking inside the star
never succeeds.  The engine then advances the start position, which the
scanner below does explicitly, giving the leftmost-match semantics of
String.prototype.match without the g flag.
-/

/-- The character class of the JavaScript regular-expression escape \s
(white space), used by the \s* parts of both extraction regexes. -/
def isJsWs (c : Char) : Bool :=
  c = ' ' || c = '\t' || c = '\n' || c = '\x0b' || c = '\x0c' || c = '\r' ||
  c = '\xa0' || c = '\u1680' ||
  ('\u2000' <= c && c <= '\u200a') ||
  c = '\u2028' || c = '\u2029' || c = '\u202f' || c = '\u205f' ||
  c = '\u3000' || c = '\ufeff'

/-- JavaScript line terminators: the dot of the regex alternative \\.
matches any character except these. -/
def isLineTerm (c : Char) : Bool :=
  c = '\n' || c = '\r' || c = '\u2028' || c = '\u2029'

/-- Maximal munch of the starred class ((?:[^"\\]|\\.)*) shared by both
regexes of the extract helper (BankingUI.tsx lines 324 and 331): returns
the consumed run and the unconsumed rest.  The munch stops at a double
quote, at a trailing backslash with no following character, and at a
backslash followed by a line terminator. -/
def tokenRun : List Char → List Char × List Char
  | [] => ([], [])
  | c :: s =>
    if c = '"' then ([], c :: s)
    else if c = '\\' then
      match s with
      | [] => ([], [c])
      | d :: s' =>
        if isLineTerm d then ([], c :: d :: s')
        else
          let p := tokenRun s'
          (c :: d :: p.1, p.2)
    else
      let p := tokenRun s
      (c :: p.1, p.2)

/-- The common head of both regexes at one start position:
the literal "key", then \s*, then a colon, then \s*, then the opening
double quote.  Returns the rest of the input after the opening quote.
The \s* parts are deterministic because neither a colon nor a double
quote is white space. -/
def matchKeyHead (key s : List Char) : Option (List Char) :=
  if ('"' :: key ++ ['"']).isPrefixOf s then
    match (s.drop (key.length + 2)).dropWhile isJsWs with
    | [] => none
    | c1 :: r2 =>
      if c1 = ':' then
        match r2.dropWhile isJsWs with
        | [] => none
        | c2 :: r4 => if c2 = '"' then some r4 else none
      else none
  else none

/-- The strict (pass 1) regex attempted at one start position: the
munched run must be followed by a closing double quote
(BankingUI.tsx line 324). -/
def strictAt (key s : List Char) : Option (List Char) :=
  match matchKeyHead key s with
  | none => none
  | some r =>
    match tokenRun r with
    | (v, '"' :: _) => some v
    | _ => none

/-- The loose (pass 2) regex attempted at one start position: the
munched run must reach the very end of the buffer, matching the $
anchor, which in JavaScript without the m flag matches only at the end
of the input (BankingUI.tsx line 331). -/
def looseAt (key s : List Char) : Option (List Char) :=
  match matchKeyHead key s with
  | none => none
  | some r =>
    match tokenRun r with
    | (v, []) => some v
    | _ => none

/-- Leftmost-match scan over all start positions, as performed by
String.prototype.match with a non-global regex. -/
def scanSuffixes (f : List Char → Option (List Char)) : List Char → Option (List Char)
  | [] => f []
  | c :: s =>
    match f (c :: s) with
    | some v => some v
    | none => scanSuffixes f s

/-- jsonStr.match(strictRegex) of BankingUI.tsx line 325 (the capture). -/
def strictFind (key s : List Char) : Option (List Char) :=
  scanSuffixes (strictAt key) s

/-- jsonStr.match(looseRegex) of BankingUI.tsx line 332 (the capture). -/
def looseFind (key s : List Char) : Option (List Char) :=
  scanSuffixes (looseAt key) s

/-- The extract helper of parsePartialJson (BankingUI.tsx lines 321-336):
pass 1 capture if any, else pass 2 capture if any, else the empty
string. -/
def extract (key jsonStr : List Char) : List Char :=
  match strictFind key jsonStr with
  | some v => v
  | none =>
    match looseFind key jsonStr with
    | some v => v
    | none => []

/-- String.prototype.replace with a global two-character pattern and a
replacement containing no dollar sign: left-to-right, non-overlapping
replacement of the pattern a b by rep. -/
def replace2 (a b : Char) (rep : List Char) : List Char → List Char
  | [] => []
  | [c] => [c]
  | c :: d :: s =>
    if c = a ∧ d = b then rep ++ replace2 a b rep s
    else c :: replace2 a b rep (d :: s)

/-- The p5Code decoding chain of parsePartialJson (BankingUI.tsx lines
344-348): replace \n by a newline, then \" by a double quote, then \\ by
a backslash, then \t by two spaces, in this order. -/
def decodeP5 (raw : List Char) : List Char :=
  replace2 '\\' 't' [' ', ' ']
    (replace2 '\\' '\\' ['\\']
      (replace2 '\\' '"' ['"']
        (replace2 '\\' 'n' ['\n'] raw)))

/-- The configured field name mutationName. -/
def mKeyL : List Char := "mutationName".toList

/-- The configured field name reasoning. -/
def rKeyL : List Char := "reasoning".toList

/-- The configured field name p5Code. -/
def pKeyL : List Char := "p5Code".toList

/-- The record returned by parsePartialJson (BankingUI.tsx line 319). -/
structure ParseResult where
  mutationName : List Char
  reasoning : List Char
  p5Code : List Char
deriving DecidableEq, Repr

/-- parsePartialJson of BankingUI.tsx lines 318-352: mutationName and
reasoning are assigned the raw extract captures; p5Code is decoded only
when the raw capture is non-empty (the truthiness test of line 343). -/
def parsePartialJson (jsonStr : List Char) : ParseResult :=
  let codeRaw := extract pKeyL jsonStr
  { mutationName := extract mKeyL jsonStr
    reasoning := extract rKeyL jsonStr
    p5Code := if codeRaw = [] then [] else decodeP5 codeRaw }

/-- One update of the last-good-value cache of TerminalPanel
(BankingUI.tsx lines 417-422): the ref is overwritten by a non-empty
newly parsed p5Code value, and codeToDisplay is the new value if
non-empty, otherwise the ref.  Returns (new cache, displayed value). -/
def cacheStep (cache v : List Char) : List Char × List Char :=
  let cache' := if v = [] then cache else v
  (cache', if v = [] then cache' else v)

/-- The cache contents after a session processed a list of successive
parsed values (the session starts by the reset of lines 403-408). -/
def foldCache (cache : List Char) (vs : List (List Char)) : List Char :=
  vs.foldl (fun c v => (cacheStep c v).1) cache

/-- The sequence of displayed code values over a session. -/
def runDisplays (cache : List Char) : List (List Char) → List (List Char)
  | [] => []
  | v :: vs => (cacheStep cache v).2 :: runDisplays (cacheStep cache v).1 vs

/-- Minimal JSON string escaping of one character, used to build the
well-formed JSON objects of the round-trip property (spec section 8). -/
def escChar (c : Char) : List Char :=
  if c = '"' then ['\\', '"']
  else if c = '\\' then ['\\', '\\']
  else if c = '\n' then ['\\', 'n']
  else if c = '\t' then ['\\', 't']
  else if c = '\r' then ['\\', 'r']
  else [c]

/-- Minimal JSON string escaping (spec side: the encoder of the
round-trip property of spec section 8). -/
def jsonEscape : List Char → List Char
  | [] => []
  | c :: s => escChar c ++ jsonEscape s

/-- The key/colon/opening-quote pattern of spec section 4.1, followed by
the text after the opening quote: the literal name in double quotes,
optional white space, a colon, optional white space, an opening double
quote. -/
def patShape (key ws1 ws2 after : List Char) : List Char :=
  '"' :: key ++ '"' :: ws1 ++ ':' :: ws2 ++ '"' :: after

/-- A complete, well-formed JSON object literal with the three
configured fields as top-level string-valued properties, the encoder of
the round-trip property (spec section 8). -/
def encodeObj (v1 v2 v3 : List Char) : List Char :=
  '\x7b' :: patShape mKeyL [] []
    (jsonEscape v1 ++ '"' :: ',' :: patShape rKeyL [] []
      (jsonEscape v2 ++ '"' :: ',' :: patShape pKeyL [] []
        (jsonEscape v3 ++ '"' :: ['\x7d'])))

/-- A growing streaming buffer: an opening brace, the key pattern, and
the received part of the field value (spec section 4.1, pass 2). -/
def streamBuf (key w : List Char) : List Char :=
  '\x7b' :: patShape key [] [] w

/-- The decoding chain exactly as spec section 4.2 words it: replace
every two-character sequence backslash n by a newline, then backslash
double-quote by a double quote, then backslash backslash by a
backslash, then backslash t by two spaces, in this exact order. -/
def decodeOrderSpec (raw : List Char) : List Char :=
  let s1 := replace2 '\\' 'n' ['\n'] raw
  let s2 := replace2 '\\' '"' ['"'] s1
  let s3 := replace2 '\\' '\\' ['\\'] s2
  replace2 '\\' 't' [' ', ' '] s3

/-- A well-behaved field name: non-empty, made of characters that are
not double quotes, backslashes, colons, commas, braces or white space.
All three configured field names satisfy this. -/
def goodKeyB (key : List Char) : Bool :=
  !key.isEmpty && key.all fun c =>
    !(c = '"' || c = '\\' || c = ':' || c = ',' || c = '\x7b' || c = '\x7d' || isJsWs c)

/-- A complete token run of the starred regex class: every character is
either an ordinary character (not a double quote, not a backslash) or a
backslash followed by one non-line-terminator character. -/
inductive IsRun : List Char → Prop where
  | nil : IsRun []
  | single {c : Char} {rest : List Char} :
      c ≠ '"' → c ≠ '\\' → IsRun rest → IsRun (c :: rest)
  | esc {d : Char} {rest : List Char} :
      isLineTerm d = false → IsRun rest → IsRun ('\\' :: d :: rest)

/-- Executable mirror of IsRun. -/
def isRunB : List Char → Bool
  | [] => true
  | c :: s =>
    if c = '"' then false
    else if c = '\\' then
      match s with
      | [] => false
      | d :: s' => !isLineTerm d && isRunB s'
    else isRunB s

/-- All characters are JavaScript regex white space. -/
def allWsB (w : List Char) : Bool := w.all isJsWs

/-- A value needing no JSON escaping at all. -/
def plainB (v : List Char) : Bool :=
  v.all fun c => !(c = '"' || c = '\\' || c = '\n' || c = '\t' || c = '\r')

/-- A code value containing no backslash, tab or carriage return (it may
contain double quotes and newlines). -/
def codeOkB (v : List Char) : Bool :=
  v.all fun c => !(c = '\\' || c = '\t' || c = '\r')

/-- Intermediate form of an escaped code value after the first decoding
pass: only the double quotes are still escaped. -/
def escQuoteOnly : List Char → List Char
  | [] => []
  | c :: s => (if c = '"' then ['\\', '"'] else [c]) ++ escQuoteOnly s


theorem prefOfIff {l1 l2 : List Char} : l1.isPrefixOf l2 = true ↔ l1 <+: l2 :=
  List.isPrefixOf_iff_prefix

theorem takePre (n : Nat) (l : List Char) : l.take n <+: l :=
  List.take_prefix n l

theorem nilPre (l : List Char) : [] <+: l :=
  List.nil_prefix

theorem prefApp (l1 l2 : List Char) : l1 <+: l1 ++ l2 :=
  List.prefix_append l1 l2

theorem infRefl (l : List Char) : l <:+: l :=
  List.infix_refl l

theorem tokenRun_nil : tokenRun [] = ([], []) := by rw [tokenRun.eq_def]

theorem tokenRun_quote (s : List Char) : tokenRun ('"' :: s) = ([], '"' :: s) := by
  rw [tokenRun.eq_def]; simp

theorem tokenRun_bs1 : tokenRun ['\\'] = ([], ['\\']) := by
  rw [tokenRun.eq_def]; simp

theorem tokenRun_bsLT {d : Char} (s : List Char) (h : isLineTerm d = true) :
    tokenRun ('\\' :: d :: s) = ([], '\\' :: d :: s) := by
  rw [tokenRun.eq_def]; simp [h]

theorem tokenRun_bsOk {d : Char} (s : List Char) (h : isLineTerm d = false) :
    tokenRun ('\\' :: d :: s) = ('\\' :: d :: (tokenRun s).1, (tokenRun s).2) := by
  rw [tokenRun.eq_def]; simp [h]

theorem tokenRun_ord {c : Char} (s : List Char) (hq : c ≠ '"') (hb : c ≠ '\\') :
    tokenRun (c :: s) = (c :: (tokenRun s).1, (tokenRun s).2) := by
  rw [tokenRun.eq_def]; simp [hq, hb]

theorem tokenRun_split (l : List Char) : (tokenRun l).1 ++ (tokenRun l).2 = l := by
  induction l using tokenRun.induct with
  | case1 => simp [tokenRun_nil]
  | case2 s' => simp [tokenRun_quote]
  | case3 h => simp [tokenRun_bs1]
  | case4 d s' hd h => simp [tokenRun_bsLT _ hd]
  | case5 d s' hd h ih =>
    rw [tokenRun_bsOk _ (Bool.not_eq_true _ ▸ hd)]
    simpa using ih
  | case6 d s' h1 h2 ih =>
    rw [tokenRun_ord _ h1 h2]
    simpa using ih

theorem isRun_tokenRun (l : List Char) : IsRun (tokenRun l).1 := by
  induction l using tokenRun.induct with
  | case1 => rw [tokenRun_nil]; exact IsRun.nil
  | case2 s' => rw [tokenRun_quote]; exact IsRun.nil
  | case3 h => rw [tokenRun_bs1]; exact IsRun.nil
  | case4 d s' hd h => rw [tokenRun_bsLT _ hd]; exact IsRun.nil
  | case5 d s' hd h ih =>
    rw [tokenRun_bsOk _ (Bool.not_eq_true _ ▸ hd)]
    exact IsRun.esc (Bool.not_eq_true _ ▸ hd) ih
  | case6 d s' h1 h2 ih =>
    rw [tokenRun_ord _ h1 h2]
    exact IsRun.single h1 h2 ih

theorem isRunB_of_isRun {l : List Char} (h : IsRun l) : isRunB l = true := by
  induction h with
  | nil => rfl
  | single hq hb _ ih => rw [isRunB.eq_def]; simp [hq, hb]; exact ih
  | esc hd _ ih => rw [isRunB.eq_def]; simp [hd]; exact ih

theorem isRun_of_isRunB : ∀ l : List Char, isRunB l = true → IsRun l := by
  intro l
  induction l using isRunB.induct with
  | case1 => intro _; exact IsRun.nil
  | case2 s' => intro h; rw [isRunB.eq_def] at h; simp at h
  | case3 h => intro hc; rw [isRunB.eq_def] at hc; simp at hc
  | case4 d s' hbq ih =>
    intro h
    rw [isRunB.eq_def] at h
    simp at h
    exact IsRun.esc h.1 (ih h.2)
  | case5 d s' h1 h2 ih =>
    intro h
    rw [isRunB.eq_def] at h
    simp [h1, h2] at h
    exact IsRun.single h1 h2 (ih h)

theorem tokenRun_run_quote {w : List Char} (h : IsRun w) (r : List Char) :
    tokenRun (w ++ '"' :: r) = (w, '"' :: r) := by
  induction h with
  | nil => simpa using tokenRun_quote r
  | @single c rest hq hb _ ih =>
    rw [List.cons_append, tokenRun_ord _ hq hb, ih]
  | @esc d rest hd _ ih =>
    rw [List.cons_append, List.cons_append, tokenRun_bsOk _ hd, ih]

theorem tokenRun_run_nil {w : List Char} (h : IsRun w) : tokenRun w = (w, []) := by
  induction h with
  | nil => exact tokenRun_nil
  | @single c rest hq hb _ ih => rw [tokenRun_ord _ hq hb, ih]
  | @esc d rest hd _ ih => rw [tokenRun_bsOk _ hd, ih]

theorem tokenRun_run_bs {w : List Char} (h : IsRun w) :
    tokenRun (w ++ ['\\']) = (w, ['\\']) := by
  induction h with
  | nil => simpa using tokenRun_bs1
  | @single c rest hq hb _ ih => rw [List.cons_append, tokenRun_ord _ hq hb, ih]
  | @esc d rest hd _ ih =>
    rw [List.cons_append, List.cons_append, tokenRun_bsOk _ hd, ih]

theorem tokenRun_take {v : List Char} (h : IsRun v) :
    ∀ n : Nat, tokenRun (v.take n) = (v.take n, []) ∨
      ∃ w, v.take n = w ++ ['\\'] ∧ tokenRun (v.take n) = (w, ['\\']) := by
  induction h with
  | nil => intro n; left; simp [tokenRun_nil]
  | @single c rest hq hb _ ih =>
    intro n
    match n with
    | 0 => left; simp [tokenRun_nil]
    | n + 1 =>
      rcases ih n with h1 | ⟨w, hw, ht⟩
      · left; simp only [List.take_succ_cons, tokenRun_ord _ hq hb, h1]
      · right
        refine ⟨c :: w, by simp [hw], ?_⟩
        simp only [List.take_succ_cons, tokenRun_ord _ hq hb, ht]
  | @esc d rest hd _ ih =>
    intro n
    match n with
    | 0 => left; simp [tokenRun_nil]
    | 1 => right; exact ⟨[], by simp, by simpa using tokenRun_bs1⟩
    | n + 2 =>
      rcases ih n with h1 | ⟨w, hw, ht⟩
      · left; simp only [List.take_succ_cons, tokenRun_bsOk _ hd, h1]
      · right
        refine ⟨'\\' :: d :: w, by simp [hw], ?_⟩
        simp only [List.take_succ_cons, tokenRun_bsOk _ hd, ht]

theorem run_quote_escaped {v : List Char} (h : IsRun v) :
    ∀ x y : List Char, v = x ++ '"' :: y → ∃ x', x = x' ++ ['\\'] := by
  induction h with
  | nil => intro x y hxy; exact absurd hxy.symm (by simp)
  | @single c rest hq hb _ ih =>
    intro x y hxy
    cases x with
    | nil => simp at hxy; exact absurd hxy.1 hq
    | cons a x'' =>
      simp only [List.cons_append, List.cons.injEq] at hxy
      obtain ⟨x', rfl⟩ := ih x'' y hxy.2
      exact ⟨a :: x', by simp [hxy.1]⟩
  | @esc d rest hd _ ih =>
    intro x y hxy
    cases x with
    | nil => simp at hxy
    | cons a x'' =>
      cases x'' with
      | nil =>
        simp only [List.cons_append, List.nil_append, List.cons.injEq] at hxy
        exact ⟨[], by simp [hxy.1.symm]⟩
      | cons b x''' =>
        simp only [List.cons_append, List.cons.injEq] at hxy
        obtain ⟨x', rfl⟩ := ih x''' y hxy.2.2
        exact ⟨a :: b :: x', by simp [hxy.1, hxy.2.1]⟩


theorem goodKey_spec {key : List Char} (h : goodKeyB key = true) :
    key ≠ [] ∧ ∀ c ∈ key, ¬c = '"' ∧ ¬c = '\\' ∧ ¬c = ':' ∧ ¬c = ',' ∧
      ¬c = '\x7b' ∧ ¬c = '\x7d' ∧ isJsWs c = false := by
  simp only [goodKeyB, Bool.and_eq_true, List.all_eq_true, Bool.not_eq_true',
    Bool.or_eq_false_iff, decide_eq_false_iff_not] at h
  obtain ⟨h1, h2⟩ := h
  refine ⟨fun hk => by simp [hk] at h1, fun c hc => ?_⟩
  have := h2 c hc
  tauto

theorem dropWhile_all_head {p : Char → Bool} {w : List Char} {c : Char} (r : List Char)
    (hw : ∀ x ∈ w, p x = true) (hc : p c = false) :
    List.dropWhile p (w ++ c :: r) = c :: r := by
  induction w with
  | nil => simp [List.dropWhile_cons, hc]
  | cons a w' ih =>
    rw [List.cons_append, List.dropWhile_cons, if_pos (hw a (by simp))]
    exact ih (fun x hx => hw x (by simp [hx]))

theorem mkh_nil (key : List Char) : matchKeyHead key [] = none := by
  simp [matchKeyHead, List.isPrefixOf]

theorem mkh_not_quote {c : Char} (key s : List Char) (h : c ≠ '"') :
    matchKeyHead key (c :: s) = none := by
  have hpre : (('"' :: key ++ ['"']).isPrefixOf (c :: s)) = false := by
    rw [Bool.eq_false_iff]
    intro hp
    rw [prefOfIff, List.cons_append, List.cons_prefix_cons] at hp
    exact h hp.1.symm
  rw [matchKeyHead, if_neg (by rw [hpre]; simp)]

theorem mkh_pat_pref {key s r : List Char} (h : matchKeyHead key s = some r) :
    ('"' :: key ++ ['"']) <+: s := by
  by_cases hpre : (('"' :: key ++ ['"']).isPrefixOf s) = true
  · exact prefOfIff.mp hpre
  · rw [matchKeyHead, if_neg (by simpa using hpre)] at h
    exact absurd h (by simp)


theorem mkh_sound {key s r : List Char} (h : matchKeyHead key s = some r) :
    ∃ ws1 ws2, allWsB ws1 = true ∧ allWsB ws2 = true ∧ s = patShape key ws1 ws2 r := by
  obtain ⟨rest0, hs⟩ := mkh_pat_pref h
  rw [matchKeyHead, if_pos (prefOfIff.mpr ⟨rest0, hs⟩)] at h
  subst hs
  rw [show key.length + 2 = ('"' :: key ++ ['"']).length by simp, List.drop_left] at h
  rcases hd1 : rest0.dropWhile isJsWs with _ | ⟨c1, r2⟩ <;> rw [hd1] at h
  · exact absurd h (by simp)
  dsimp only at h
  by_cases hc1 : c1 = ':'
  case neg => rw [if_neg hc1] at h; exact absurd h (by simp)
  rw [if_pos hc1] at h
  subst hc1
  rcases hd2 : r2.dropWhile isJsWs with _ | ⟨c2, r4⟩ <;> rw [hd2] at h
  · exact absurd h (by simp)
  dsimp only at h
  by_cases hc2 : c2 = '"'
  case neg => rw [if_neg hc2] at h; exact absurd h (by simp)
  rw [if_pos hc2] at h
  subst hc2
  simp only [Option.some.injEq] at h
  have e1 : rest0.takeWhile isJsWs ++ ':' :: r2 = rest0 := by
    conv_rhs => rw [← List.takeWhile_append_dropWhile isJsWs rest0]
    rw [hd1]
  have e2 : r2.takeWhile isJsWs ++ '"' :: r4 = r2 := by
    conv_rhs => rw [← List.takeWhile_append_dropWhile isJsWs r2]
    rw [hd2]
  refine ⟨rest0.takeWhile isJsWs, r2.takeWhile isJsWs, ?_, ?_, ?_⟩
  · simp only [allWsB, List.all_eq_true]
    exact fun x hx => List.mem_takeWhile_imp hx
  · simp only [allWsB, List.all_eq_true]
    exact fun x hx => List.mem_takeWhile_imp hx
  · conv_lhs => rw [← e1, ← e2]
    rw [patShape, h]
    simp

theorem mkh_complete {ws1 ws2 : List Char} (key r : List Char)
    (h1 : allWsB ws1 = true) (h2 : allWsB ws2 = true) :
    matchKeyHead key (patShape key ws1 ws2 r) = some r := by
  have hshape : patShape key ws1 ws2 r
      = ('"' :: key ++ ['"']) ++ (ws1 ++ ':' :: (ws2 ++ '"' :: r)) := by
    rw [patShape]; simp
  have hpre : (('"' :: key ++ ['"']).isPrefixOf (patShape key ws1 ws2 r)) = true := by
    rw [prefOfIff, hshape]
    exact prefApp _ _
  rw [matchKeyHead, if_pos hpre]
  rw [show key.length + 2 = ('"' :: key ++ ['"']).length by simp]
  rw [hshape, List.drop_left]
  rw [dropWhile_all_head _ (by simpa [allWsB, List.all_eq_true] using h1) (by decide)]
  simp only [if_pos]
  rw [dropWhile_all_head _ (by simpa [allWsB, List.all_eq_true] using h2) (by decide)]
  simp

theorem strictAt_none_of_mkh {key s : List Char} (h : matchKeyHead key s = none) :
    strictAt key s = none := by
  simp only [strictAt, h]

theorem looseAt_none_of_mkh {key s : List Char} (h : matchKeyHead key s = none) :
    looseAt key s = none := by
  simp only [looseAt, h]

theorem strictAt_none_head {c : Char} (key s : List Char) (h : c ≠ '"') :
    strictAt key (c :: s) = none :=
  strictAt_none_of_mkh (mkh_not_quote key s h)

theorem looseAt_none_head {c : Char} (key s : List Char) (h : c ≠ '"') :
    looseAt key (c :: s) = none :=
  looseAt_none_of_mkh (mkh_not_quote key s h)

theorem strictAt_patShape {ws1 ws2 v : List Char} (key suf : List Char)
    (h1 : allWsB ws1 = true) (h2 : allWsB ws2 = true) (hv : IsRun v) :
    strictAt key (patShape key ws1 ws2 (v ++ '"' :: suf)) = some v := by
  simp only [strictAt, mkh_complete key _ h1 h2, tokenRun_run_quote hv]

theorem looseAt_patShape {ws1 ws2 v : List Char} (key : List Char)
    (h1 : allWsB ws1 = true) (h2 : allWsB ws2 = true) (hv : IsRun v) :
    looseAt key (patShape key ws1 ws2 v) = some v := by
  simp only [looseAt, mkh_complete key _ h1 h2, tokenRun_run_nil hv]

theorem strictAt_sound {key s v : List Char} (h : strictAt key s = some v) :
    ∃ ws1 ws2 suf, allWsB ws1 = true ∧ allWsB ws2 = true ∧ IsRun v ∧
      s = patShape key ws1 ws2 (v ++ '"' :: suf) := by
  rcases hm : matchKeyHead key s with _ | r <;> rw [strictAt, hm] at h
  · exact absurd h (by simp)
  dsimp only at h
  rcases ht : tokenRun r with ⟨w, rest⟩
  rw [ht] at h
  split at h
  case h_2 => exact absurd h (by simp)
  rename_i w' suf heq
  obtain ⟨rfl, rfl⟩ : w = w' ∧ rest = '"' :: suf :=
    ⟨congrArg Prod.fst heq, congrArg Prod.snd heq⟩
  simp only [Option.some.injEq] at h
  subst h
  obtain ⟨ws1, ws2, hw1, hw2, hs⟩ := mkh_sound hm
  have hr : r = w ++ '"' :: suf := by
    have := tokenRun_split r
    rw [ht] at this
    exact this.symm
  have hrun : IsRun w := by
    have := isRun_tokenRun r
    rw [ht] at this
    exact this
  exact ⟨ws1, ws2, suf, hw1, hw2, hrun, by rw [hs, hr]⟩

theorem looseAt_sound {key s v : List Char} (h : looseAt key s = some v) :
    ∃ ws1 ws2, allWsB ws1 = true ∧ allWsB ws2 = true ∧ IsRun v ∧
      s = patShape key ws1 ws2 v := by
  rcases hm : matchKeyHead key s with _ | r <;> rw [looseAt, hm] at h
  · exact absurd h (by simp)
  dsimp only at h
  rcases ht : tokenRun r with ⟨w, rest⟩
  rw [ht] at h
  split at h
  case h_2 => exact absurd h (by simp)
  rename_i w' heq
  obtain ⟨rfl, hrest⟩ : w = w' ∧ rest = [] :=
    ⟨congrArg Prod.fst heq, congrArg Prod.snd heq⟩
  simp only [Option.some.injEq] at h
  subst h
  obtain ⟨ws1, ws2, hw1, hw2, hs⟩ := mkh_sound hm
  have hr : r = w := by
    have := tokenRun_split r
    rw [ht, hrest] at this
    simpa using this.symm
  have hrun : IsRun w := by
    have := isRun_tokenRun r
    rw [ht] at this
    exact this
  exact ⟨ws1, ws2, hw1, hw2, hrun, by rw [hs, hr]⟩

theorem scan_nil (f : List Char → Option (List Char)) : scanSuffixes f [] = f [] := rfl

theorem scan_cons (f : List Char → Option (List Char)) (c : Char) (s : List Char) :
    scanSuffixes f (c :: s) =
      match f (c :: s) with
      | some v => some v
      | none => scanSuffixes f s := rfl

theorem scan_cons_none {f : List Char → Option (List Char)} {c : Char} {s : List Char}
    (h : f (c :: s) = none) : scanSuffixes f (c :: s) = scanSuffixes f s := by
  rw [scan_cons, h]

theorem scan_head_some {f : List Char → Option (List Char)} {s v : List Char}
    (h : f s = some v) : scanSuffixes f s = some v := by
  cases s with
  | nil => rw [scan_nil, h]
  | cons c s' => rw [scan_cons, h]

theorem scan_skip {f : List Char → Option (List Char)}
    (hf : ∀ (c : Char) (s : List Char), c ≠ '"' → f (c :: s) = none) :
    ∀ w t : List Char, (∀ c ∈ w, c ≠ '"') →
      scanSuffixes f (w ++ t) = scanSuffixes f t := by
  intro w
  induction w with
  | nil => intro t _; rfl
  | cons a w' ih =>
    intro t hw
    rw [List.cons_append, scan_cons_none (hf a _ (hw a (by simp)))]
    exact ih t (fun c hc => hw c (by simp [hc]))

theorem scan_sound {f : List Char → Option (List Char)} :
    ∀ {s v : List Char}, scanSuffixes f s = some v → ∃ t, t <:+ s ∧ f t = some v := by
  intro s
  induction s with
  | nil => intro v h; exact ⟨[], List.suffix_refl _, by rw [← scan_nil f]; exact h⟩
  | cons c s ih =>
    intro v h
    rw [scan_cons] at h
    rcases hf : f (c :: s) with _ | w <;> rw [hf] at h
    · obtain ⟨t, ht, hft⟩ := ih h
      exact ⟨t, ht.trans (List.suffix_cons c s), hft⟩
    · simp only [Option.some.injEq] at h
      exact ⟨c :: s, List.suffix_refl _, by rw [hf, h]⟩

theorem scan_none_of_all {f : List Char → Option (List Char)} :
    ∀ s : List Char, (∀ t, t <:+ s → f t = none) → scanSuffixes f s = none := by
  intro s
  induction s with
  | nil => intro h; rw [scan_nil]; exact h [] (List.suffix_refl _)
  | cons c s ih =>
    intro h
    rw [scan_cons_none (h (c :: s) (List.suffix_refl _))]
    exact ih (fun t ht => h t (ht.trans (List.suffix_cons c s)))

theorem scan_eq_of_unique {f : List Char → Option (List Char)} {S v : List Char}
    (hS : f S = some v) :
    ∀ B : List Char, S <:+ B →
      (∀ t, t <:+ B → S.length < t.length → f t = none ∨ f t = some v) →
      scanSuffixes f B = some v := by
  intro B
  induction B with
  | nil =>
    intro h1 _
    rw [List.suffix_nil] at h1
    subst h1
    exact scan_head_some hS
  | cons c B' ih =>
    intro h1 h2
    rcases h1 with ⟨pre, hpre⟩
    cases pre with
    | nil => simp only [List.nil_append] at hpre; subst hpre; exact scan_head_some hS
    | cons p ps =>
      simp only [List.cons_append, List.cons.injEq] at hpre
      have hSB' : S <:+ B' := ⟨ps, hpre.2⟩
      have hlen : S.length < (c :: B').length := by
        have := hSB'.length_le
        simp only [List.length_cons]
        omega
      rcases h2 (c :: B') (List.suffix_refl _) hlen with hf | hf
      · rw [scan_cons_none hf]
        exact ih hSB' (fun t ht hl => h2 t (ht.trans (List.suffix_cons c B')) hl)
      · exact scan_head_some hf

theorem suffix_append_split {t a b : List Char} (h : t <:+ a ++ b) :
    t <:+ b ∨ ∃ a', a' <:+ a ∧ a' ≠ [] ∧ t = a' ++ b := by
  induction a with
  | nil => left; simpa using h
  | cons c a' ih =>
    rcases h with ⟨pre, hpre⟩
    cases pre with
    | nil =>
      right
      refine ⟨c :: a', List.suffix_refl _, by simp, ?_⟩
      simpa using hpre
    | cons p ps =>
      simp only [List.cons_append, List.cons.injEq] at hpre
      rcases ih ⟨ps, hpre.2⟩ with h1 | ⟨a'', h2, h3, h4⟩
      · left; exact h1
      · right; exact ⟨a'', h2.trans (List.suffix_cons _ _), h3, h4⟩

theorem pref_append_single {p u : List Char} {x : Char} (h : p <+: u ++ [x]) :
    p <+: u ∨ p = u ++ [x] := by
  rcases h with ⟨t, ht⟩
  rcases List.eq_nil_or_concat t with rfl | ⟨t', y, rfl⟩
  · right; simpa using ht
  · left
    rw [List.concat_eq_append, ← List.append_assoc] at ht
    exact ⟨t', (List.append_inj' ht (by simp)).1⟩

theorem pref_key_quote : ∀ k nm z : List Char, (∀ c ∈ k, c ≠ '"') → (∀ c ∈ nm, c ≠ '"') →
    (k ++ ['"'] <+: nm ++ '"' :: z) → k = nm := by
  intro k
  induction k with
  | nil =>
    intro nm z _ hnm hp
    cases nm with
    | nil => rfl
    | cons b nm' =>
      simp only [List.nil_append, List.cons_append, List.cons_prefix_cons] at hp
      exact absurd hp.1.symm (hnm b (by simp))
  | cons a k' ih =>
    intro nm z hk hnm hp
    cases nm with
    | nil =>
      simp only [List.cons_append, List.nil_append, List.cons_prefix_cons] at hp
      exact absurd hp.1 (hk a (by simp))
    | cons b nm' =>
      simp only [List.cons_append, List.cons_prefix_cons] at hp
      rw [ih nm' z (fun c hc => hk c (by simp [hc])) (fun c hc => hnm c (by simp [hc])) hp.2,
        hp.1]

theorem pattern_not_in_run {key v : List Char} (hk : goodKeyB key = true)
    (hr : IsRun v) : ¬ ('"' :: key ++ ['"']) <:+: v := by
  intro hinf
  rcases hinf with ⟨a, b, hab⟩
  have hv : v = (a ++ '"' :: key) ++ '"' :: b := by
    rw [← hab]; simp
  obtain ⟨x', hx⟩ := run_quote_escaped hr _ _ hv
  obtain ⟨hne, hall⟩ := goodKey_spec hk
  rcases List.eq_nil_or_concat key with rfl | ⟨ks, kl, rfl⟩
  · exact hne rfl
  rw [List.concat_eq_append] at hx hall
  have hlast : kl = '\\' := by
    have h2 := congrArg List.getLast? hx
    rw [show a ++ '"' :: (ks ++ [kl]) = (a ++ '"' :: ks) ++ [kl] by simp,
      List.getLast?_concat, List.getLast?_concat] at h2
    exact Option.some.inj h2
  exact (hall kl (by simp)).2.1 hlast

theorem mkh_none_in_run {key v : List Char} (hk : goodKeyB key = true) (hr : IsRun v) :
    ∀ t : List Char, t <:+: v → matchKeyHead key t = none := by
  intro t hinf
  rcases hm : matchKeyHead key t with _ | r
  · rfl
  exact absurd ((mkh_pat_pref hm).isInfix.trans hinf) (pattern_not_in_run hk hr)

theorem scan_none_in_run {key v : List Char} (hk : goodKeyB key = true) (hr : IsRun v)
    {f : List Char → Option (List Char)}
    (hf : ∀ s, matchKeyHead key s = none → f s = none) :
    ∀ w : List Char, w <:+: v → scanSuffixes f w = none := by
  intro w hinf
  apply scan_none_of_all
  intro t ht
  exact hf t (mkh_none_in_run hk hr t (ht.isInfix.trans hinf))

theorem mkh_none_run_bs {key v : List Char} (hk : goodKeyB key = true) (hr : IsRun v)
    {w' : List Char} (hinf : w' <:+: v) : matchKeyHead key (w' ++ ['\\']) = none := by
  rcases hm : matchKeyHead key (w' ++ ['\\']) with _ | r
  · rfl
  exfalso
  rcases pref_append_single (mkh_pat_pref hm) with h2 | h2
  · exact pattern_not_in_run hk hr (h2.isInfix.trans hinf)
  · have h3 := congrArg List.getLast? h2
    rw [show ('"' : Char) :: key ++ ['"'] = ('"' :: key) ++ ['"'] by simp,
      List.getLast?_concat, List.getLast?_concat] at h3
    exact absurd (Option.some.inj h3) (by decide)

theorem scan_none_in_run_bs {key v : List Char} (hk : goodKeyB key = true) (hr : IsRun v)
    {f : List Char → Option (List Char)}
    (hf : ∀ s, matchKeyHead key s = none → f s = none) :
    ∀ w : List Char, w <:+: v → scanSuffixes f (w ++ ['\\']) = none := by
  intro w hinf
  apply scan_none_of_all
  intro t ht
  apply hf
  rcases suffix_append_split ht with h1 | ⟨w', hw', _, rfl⟩
  · rcases h1 with ⟨pre, hpre⟩
    cases pre with
    | nil =>
      simp only [List.nil_append] at hpre
      subst hpre
      exact mkh_not_quote key [] (by decide)
    | cons p ps =>
      have : t = [] := by
        have := congrArg List.length hpre
        simp only [List.length_append, List.length_cons, List.length_nil] at this
        have h0 : t.length = 0 := by omega
        simpa using h0
      subst this
      exact mkh_nil key
  · exact mkh_none_run_bs hk hr (hw'.isInfix.trans hinf)

theorem extract_strict {key s v : List Char} (h : strictFind key s = some v) :
    extract key s = v := by
  simp only [extract, h]

theorem extract_loose {key s v : List Char} (h1 : strictFind key s = none)
    (h2 : looseFind key s = some v) : extract key s = v := by
  simp only [extract, h1, h2]

theorem extract_empty {key s : List Char} (h1 : strictFind key s = none)
    (h2 : looseFind key s = none) : extract key s = [] := by
  simp only [extract, h1, h2]

theorem scan_some_of_suffix {f : List Char → Option (List Char)} {t v : List Char}
    (ht : f t = some v) : ∀ s : List Char, t <:+ s → ∃ v', scanSuffixes f s = some v' := by
  intro s
  induction s with
  | nil =>
    intro hs
    rw [List.suffix_nil] at hs
    subst hs
    exact ⟨v, scan_head_some ht⟩
  | cons c s' ih =>
    intro hs
    rcases hf : f (c :: s') with _ | w
    · rw [scan_cons_none hf]
      rcases hs with ⟨pre, hpre⟩
      cases pre with
      | nil =>
        simp only [List.nil_append] at hpre
        rw [hpre] at ht
        exact absurd ht (by rw [hf]; simp)
      | cons p ps =>
        simp only [List.cons_append, List.cons.injEq] at hpre
        exact ih ⟨ps, hpre.2⟩
    · exact ⟨w, scan_head_some hf⟩

theorem ws_tail_getLast_ne_bs {A ws : List Char} (hw : allWsB ws = true) :
    (A ++ ':' :: ws).getLast? ≠ some '\\' := by
  intro h
  rcases List.eq_nil_or_concat ws with rfl | ⟨ys, c, rfl⟩
  · rw [show A ++ [':'] = A ++ [':'] from rfl, List.getLast?_concat] at h
    exact absurd (Option.some.inj h) (by decide)
  · rw [List.concat_eq_append] at hw h
    rw [show A ++ ':' :: (ys ++ [c]) = (A ++ ':' :: ys) ++ [c] by simp,
      List.getLast?_concat] at h
    have hc : c = '\\' := Option.some.inj h
    subst hc
    simp only [allWsB, List.all_eq_true] at hw
    exact absurd (hw '\\' (by simp)) (by decide)

theorem seam_no_overlap {P Q u z : List Char} (hrun : IsRun (u ++ z))
    (hPe : P.getLast? ≠ some '\\') (hu : u ≠ [])
    (heq : Q ++ '"' :: u = P ++ ['"']) : False := by
  rcases List.eq_nil_or_concat u with rfl | ⟨us, ul, rfl⟩
  · exact hu rfl
  rw [List.concat_eq_append] at hrun heq
  have hul : ul = '"' := by
    have h2 := congrArg List.getLast? heq
    rw [show Q ++ '"' :: (us ++ [ul]) = (Q ++ '"' :: us) ++ [ul] by simp,
      List.getLast?_concat, List.getLast?_concat] at h2
    exact Option.some.inj h2
  subst hul
  obtain ⟨x', hx⟩ := run_quote_escaped hrun us z (by simp)
  have h3 : Q ++ '"' :: us = P := by
    rw [show Q ++ '"' :: (us ++ ['"']) = (Q ++ '"' :: us) ++ ['"'] by simp] at heq
    exact (List.append_inj' heq rfl).1
  apply hPe
  rw [← h3, hx, show Q ++ '"' :: (x' ++ ['\\']) = (Q ++ '"' :: x') ++ ['\\'] by simp,
    List.getLast?_concat]

theorem looseFind_patShape {key pre ws1 ws2 v : List Char}
    (h1 : allWsB ws1 = true) (h2 : allWsB ws2 = true) (hv : IsRun v) :
    looseFind key (pre ++ patShape key ws1 ws2 v) = some v := by
  apply scan_eq_of_unique (looseAt_patShape key h1 h2 hv) _ (List.suffix_append _ _)
  intro t ht _
  rcases hl : looseAt key t with _ | w
  · exact Or.inl rfl
  right
  obtain ⟨ws1', ws2', hw1', hw2', hrw, hts⟩ := looseAt_sound hl
  rcases ht with ⟨Z, hZ⟩
  have hXv : pre ++ patShape key ws1 ws2 v
      = ((pre ++ '"' :: key ++ '"' :: ws1) ++ ':' :: ws2) ++ '"' :: v := by
    rw [patShape]; simp
  have hYw : pre ++ patShape key ws1 ws2 v
      = ((Z ++ '"' :: key ++ '"' :: ws1') ++ ':' :: ws2') ++ '"' :: w := by
    rw [← hZ, hts, patShape]; simp
  set X1 := (pre ++ '"' :: key ++ '"' :: ws1) ++ ':' :: ws2 with hX1
  set Y2 := (Z ++ '"' :: key ++ '"' :: ws1') ++ ':' :: ws2' with hY2
  have hXe : X1.getLast? ≠ some '\\' := ws_tail_getLast_ne_bs h2
  have hYe : Y2.getLast? ≠ some '\\' := ws_tail_getLast_ne_bs hw2'
  have hsw : w <:+ pre ++ patShape key ws1 ws2 v := ⟨Y2 ++ ['"'], by rw [hYw]; simp⟩
  have hsv : v <:+ pre ++ patShape key ws1 ws2 v := ⟨X1 ++ ['"'], by rw [hXv]; simp⟩
  rcases List.suffix_or_suffix_of_suffix hsw hsv with hwv | hvw
  · rcases hwv with ⟨u, huv⟩
    cases u with
    | nil => simp only [List.nil_append] at huv; rw [huv]
    | cons a u' =>
      exfalso
      have heq : X1 ++ '"' :: (a :: u') = Y2 ++ ['"'] := by
        have hcat : (X1 ++ '"' :: (a :: u')) ++ w = (Y2 ++ ['"']) ++ w := by
          rw [show (X1 ++ '"' :: (a :: u')) ++ w = X1 ++ '"' :: ((a :: u') ++ w) by simp,
            huv, ← hXv, hYw]
          simp
        exact List.append_cancel_right hcat
      exact seam_no_overlap (huv ▸ hv) hYe (by simp) heq
  · rcases hvw with ⟨u, huw⟩
    cases u with
    | nil => simp only [List.nil_append] at huw; rw [huw]
    | cons a u' =>
      exfalso
      have heq : Y2 ++ '"' :: (a :: u') = X1 ++ ['"'] := by
        have hcat : (Y2 ++ '"' :: (a :: u')) ++ v = (X1 ++ ['"']) ++ v := by
          rw [show (Y2 ++ '"' :: (a :: u')) ++ v = Y2 ++ '"' :: ((a :: u') ++ v) by simp,
            huw, ← hYw, hXv]
          simp
        exact List.append_cancel_right hcat
      exact seam_no_overlap (huw ▸ hrw) hXe (by simp) heq

theorem mkh_quote_head_ne {key : List Char} {c2 : Char} (r : List Char)
    (hknil : key ≠ []) (hne : ∀ ks, key ≠ c2 :: ks) :
    matchKeyHead key ('"' :: c2 :: r) = none := by
  rcases hm : matchKeyHead key ('"' :: c2 :: r) with _ | x
  · rfl
  exfalso
  have hp := mkh_pat_pref hm
  rw [List.cons_append, List.cons_prefix_cons] at hp
  cases key with
  | nil => exact hknil rfl
  | cons k0 ks =>
    rw [List.cons_append, List.cons_prefix_cons] at hp
    exact hne ks (by rw [hp.2.1])

theorem mkh_quote_run {key v t : List Char} (hk : goodKeyB key = true) (hr : IsRun v)
    (hpre : t <+: v) : matchKeyHead key ('"' :: t) = none := by
  rcases hm : matchKeyHead key ('"' :: t) with _ | x
  · rfl
  exfalso
  have hp := mkh_pat_pref hm
  rw [List.cons_append, List.cons_prefix_cons] at hp
  have h2 : key ++ ['"'] <+: v := hp.2.trans hpre
  rcases h2 with ⟨rest, hrest⟩
  obtain ⟨x', hx⟩ := run_quote_escaped hr key rest (by rw [← hrest]; simp)
  obtain ⟨_, hall⟩ := goodKey_spec hk
  exact (hall '\\' (by rw [hx]; simp)).2.1 rfl

theorem mkh_quote_run_bs {key v : List Char} (hk : goodKeyB key = true) (hr : IsRun v) :
    matchKeyHead key ('"' :: (v ++ ['\\'])) = none := by
  rcases hm : matchKeyHead key ('"' :: (v ++ ['\\'])) with _ | x
  · rfl
  exfalso
  have hp := mkh_pat_pref hm
  rw [List.cons_append, List.cons_prefix_cons] at hp
  rcases pref_append_single hp.2 with h2 | h2
  · rcases h2 with ⟨rest, hrest⟩
    obtain ⟨x', hx⟩ := run_quote_escaped hr key rest (by rw [← hrest]; simp)
    obtain ⟨_, hall⟩ := goodKey_spec hk
    exact (hall '\\' (by rw [hx]; simp)).2.1 rfl
  · have h3 := congrArg List.getLast? h2
    rw [List.getLast?_concat, List.getLast?_concat] at h3
    exact absurd (Option.some.inj h3) (by decide)

theorem scanFind_streamBuf_none {key w : List Char} (hk : goodKeyB key = true)
    {f : List Char → Option (List Char)}
    (hf : ∀ s, matchKeyHead key s = none → f s = none)
    (hat : f (patShape key [] [] w) = none)
    (hquote : matchKeyHead key ('"' :: w) = none)
    (hin : scanSuffixes f w = none) :
    scanSuffixes f (streamBuf key w) = none := by
  obtain ⟨hknil, hall⟩ := goodKey_spec hk
  have hfhead : ∀ (c : Char) (s : List Char), c ≠ '"' → f (c :: s) = none :=
    fun c s hc => hf _ (mkh_not_quote key s hc)
  rw [streamBuf]
  rw [scan_cons_none (hfhead _ _ (by decide))]
  have hps : patShape key [] [] w = '"' :: (key ++ '"' :: ':' :: '"' :: w) := by
    rw [patShape]; simp
  rw [hps] at hat
  rw [hps, scan_cons_none hat]
  rw [scan_skip hfhead key _ (fun c hc => (hall c hc).1)]
  obtain ⟨k0, ks, hkey⟩ := List.exists_cons_of_ne_nil hknil
  have hk0 : ¬k0 = ':' := by
    have := hall k0 (by rw [hkey]; simp)
    exact this.2.2.1
  rw [scan_cons_none (hf _ (mkh_quote_head_ne _ hknil
    (fun ks' h => hk0 (by rw [hkey] at h; exact (List.cons.inj h).1)))),
    scan_cons_none (hfhead ':' _ (by decide)),
    scan_cons_none (hf _ hquote)]
  exact hin

theorem patShape_append (key ws1 ws2 x y : List Char) :
    patShape key ws1 ws2 x ++ y = patShape key ws1 ws2 (x ++ y) := by
  rw [patShape, patShape]; simp

theorem extract_streamBuf_final {key v : List Char} (hr : IsRun v) :
    extract key (streamBuf key v ++ '"' :: ['\x7d']) = v := by
  apply extract_strict
  rw [strictFind, streamBuf, List.cons_append, patShape_append]
  rw [scan_cons_none (strictAt_none_head key _ (by decide))]
  exact scan_head_some (strictAt_patShape key ['\x7d'] rfl rfl hr)

theorem extract_streamBuf_take {key v : List Char} (hk : goodKeyB key = true)
    (hr : IsRun v) (n : Nat) :
    extract key (streamBuf key (v.take n)) = v.take n ∨
    extract key (streamBuf key (v.take n)) = [] := by
  have htp : v.take n <+: v := takePre n v
  have hstrict : strictFind key (streamBuf key (v.take n)) = none := by
    apply scanFind_streamBuf_none hk (fun s hs => strictAt_none_of_mkh hs)
    · rcases tokenRun_take hr n with h1 | ⟨w, hw, ht⟩
      · simp only [strictAt, @mkh_complete [] [] key (v.take n) rfl rfl, h1]
      · simp only [strictAt, @mkh_complete [] [] key (v.take n) rfl rfl, ht]
        rfl
    · exact mkh_quote_run hk hr htp
    · exact scan_none_in_run hk hr (fun s hs => strictAt_none_of_mkh hs) _ htp.isInfix
  rcases tokenRun_take hr n with h1 | ⟨w, hw, ht⟩
  · left
    apply extract_loose hstrict
    have hrt : IsRun (v.take n) := by
      have h2 := isRun_tokenRun (v.take n)
      rw [h1] at h2
      exact h2
    have hsb : streamBuf key (v.take n) = ['\x7b'] ++ patShape key [] [] (v.take n) := by
      rw [streamBuf]; rfl
    rw [hsb]
    exact looseFind_patShape rfl rfl hrt
  · right
    apply extract_empty hstrict
    apply scanFind_streamBuf_none hk (fun s hs => looseAt_none_of_mkh hs)
    · simp only [looseAt, @mkh_complete [] [] key (v.take n) rfl rfl, ht]
    · exact mkh_quote_run hk hr htp
    · exact scan_none_in_run hk hr (fun s hs => looseAt_none_of_mkh hs) _ htp.isInfix

theorem extract_streamBuf_bs {key v : List Char} (hk : goodKeyB key = true)
    (hr : IsRun v) : extract key (streamBuf key (v ++ ['\\'])) = [] := by
  have hstrict : strictFind key (streamBuf key (v ++ ['\\'])) = none := by
    apply scanFind_streamBuf_none hk (fun s hs => strictAt_none_of_mkh hs)
    · simp only [strictAt, @mkh_complete [] [] key (v ++ ['\\']) rfl rfl, tokenRun_run_bs hr]
      rfl
    · exact mkh_quote_run_bs hk hr
    · exact scan_none_in_run_bs hk hr (fun s hs => strictAt_none_of_mkh hs) _
        (infRefl v)
  apply extract_empty hstrict
  apply scanFind_streamBuf_none hk (fun s hs => looseAt_none_of_mkh hs)
  · simp only [looseAt, @mkh_complete [] [] key (v ++ ['\\']) rfl rfl, tokenRun_run_bs hr]
  · exact mkh_quote_run_bs hk hr
  · exact scan_none_in_run_bs hk hr (fun s hs => looseAt_none_of_mkh hs) _
      (infRefl v)

theorem plainB_spec {v : List Char} (h : plainB v = true) :
    ∀ c ∈ v, ¬c = '"' ∧ ¬c = '\\' ∧ ¬c = '\n' ∧ ¬c = '\t' ∧ ¬c = '\r' := by
  simp only [plainB, List.all_eq_true, Bool.not_eq_true', Bool.or_eq_false_iff,
    decide_eq_false_iff_not] at h
  intro c hc
  have := h c hc
  tauto

theorem plainB_tail {c : Char} {v : List Char} (h : plainB (c :: v) = true) :
    plainB v = true := by
  simp only [plainB, List.all_cons, Bool.and_eq_true] at h ⊢
  exact h.2

theorem plain_isRun {v : List Char} (h : plainB v = true) : IsRun v := by
  induction v with
  | nil => exact IsRun.nil
  | cons c v' ih =>
    have hc := plainB_spec h c (by simp)
    exact IsRun.single hc.1 hc.2.1 (ih (plainB_tail h))

theorem plain_noQuote {v : List Char} (h : plainB v = true) : ∀ c ∈ v, c ≠ '"' :=
  fun c hc => (plainB_spec h c hc).1

theorem plain_escape_id {v : List Char} (h : plainB v = true) : jsonEscape v = v := by
  induction v with
  | nil => rfl
  | cons c v' ih =>
    have hc := plainB_spec h c (by simp)
    rw [jsonEscape, escChar, if_neg hc.1, if_neg hc.2.1, if_neg hc.2.2.1,
      if_neg hc.2.2.2.1, if_neg hc.2.2.2.2, ih (plainB_tail h)]
    rfl

theorem codeOkB_spec {v : List Char} (h : codeOkB v = true) :
    ∀ c ∈ v, ¬c = '\\' ∧ ¬c = '\t' ∧ ¬c = '\r' := by
  simp only [codeOkB, List.all_eq_true, Bool.not_eq_true', Bool.or_eq_false_iff,
    decide_eq_false_iff_not] at h
  intro c hc
  have := h c hc
  tauto

theorem codeOkB_tail {c : Char} {v : List Char} (h : codeOkB (c :: v) = true) :
    codeOkB v = true := by
  simp only [codeOkB, List.all_cons, Bool.and_eq_true] at h ⊢
  exact h.2

theorem escape_isRun {v : List Char} (h : codeOkB v = true) : IsRun (jsonEscape v) := by
  induction v with
  | nil => exact IsRun.nil
  | cons c v' ih =>
    have hc := codeOkB_spec h c (by simp)
    have ih' := ih (codeOkB_tail h)
    rw [jsonEscape, escChar]
    by_cases hq : c = '"'
    · rw [if_pos hq]
      exact IsRun.esc (by decide) ih'
    by_cases hn : c = '\n'
    · rw [if_neg hq, if_neg hc.1, if_pos hn]
      exact IsRun.esc (by decide) ih'
    · rw [if_neg hq, if_neg hc.1, if_neg hn, if_neg hc.2.1, if_neg hc.2.2]
      exact IsRun.single hq hc.1 ih'

theorem escape_ne_nil {v : List Char} (h : v ≠ []) : jsonEscape v ≠ [] := by
  cases v with
  | nil => exact absurd rfl h
  | cons c v' =>
    rw [jsonEscape, escChar]
    by_cases hq : c = '"'
    · rw [if_pos hq]; simp
    by_cases hb : c = '\\'
    · rw [if_neg hq, if_pos hb]; simp
    by_cases hn : c = '\n'
    · rw [if_neg hq, if_neg hb, if_pos hn]; simp
    by_cases ht : c = '\t'
    · rw [if_neg hq, if_neg hb, if_neg hn, if_pos ht]; simp
    by_cases hr : c = '\r'
    · rw [if_neg hq, if_neg hb, if_neg hn, if_neg ht, if_pos hr]; simp
    · rw [if_neg hq, if_neg hb, if_neg hn, if_neg ht, if_neg hr]; simp

theorem replace2_nil (a b : Char) (rep : List Char) : replace2 a b rep [] = [] := by
  rw [replace2.eq_def]

theorem replace2_one (a b : Char) (rep : List Char) (c : Char) :
    replace2 a b rep [c] = [c] := by
  rw [replace2.eq_def]

theorem replace2_hit (a b : Char) (rep s : List Char) :
    replace2 a b rep (a :: b :: s) = rep ++ replace2 a b rep s := by
  rw [replace2.eq_def]
  simp

theorem replace2_miss {a b c d : Char} (rep s : List Char) (h : ¬(c = a ∧ d = b)) :
    replace2 a b rep (c :: d :: s) = c :: replace2 a b rep (d :: s) := by
  rw [replace2.eq_def]
  simp [h]

theorem replace2_cons_ne {a b c : Char} (rep s : List Char) (h : ¬c = a) :
    replace2 a b rep (c :: s) = c :: replace2 a b rep s := by
  cases s with
  | nil => rw [replace2_one, replace2_nil]
  | cons d s' => exact replace2_miss rep s' (fun hcd => h hcd.1)

theorem replace2_id {a b : Char} (rep : List Char) :
    ∀ s : List Char, (∀ c ∈ s, ¬c = a) → replace2 a b rep s = s := by
  intro s
  induction s with
  | nil => intro _; exact replace2_nil a b rep
  | cons c s' ih =>
    intro h
    rw [replace2_cons_ne rep s' (h c (by simp)), ih (fun c hc => h c (by simp [hc]))]

theorem r2n_escape {v : List Char} (h : codeOkB v = true) :
    replace2 '\\' 'n' ['\n'] (jsonEscape v) = escQuoteOnly v := by
  induction v with
  | nil => rw [jsonEscape, escQuoteOnly, replace2_nil]
  | cons c v' ih =>
    have hc := codeOkB_spec h c (by simp)
    have ih' := ih (codeOkB_tail h)
    rw [jsonEscape, escChar, escQuoteOnly]
    by_cases hq : c = '"'
    · rw [if_pos hq, if_pos hq]
      rw [List.cons_append, List.cons_append, List.nil_append,
        replace2_miss _ _ (by simp), replace2_cons_ne _ _ (by decide), ih']
      rfl
    by_cases hn : c = '\n'
    · rw [if_neg hq, if_neg hc.1, if_pos hn, if_neg hq]
      rw [List.cons_append, List.cons_append, List.nil_append, replace2_hit, ih']
      subst hn
      rfl
    · rw [if_neg hq, if_neg hc.1, if_neg hn, if_neg hc.2.1, if_neg hc.2.2, if_neg hq]
      rw [List.cons_append, List.nil_append, List.cons_append, List.nil_append,
        replace2_cons_ne _ _ hc.1, ih']

theorem r2q_escQuoteOnly {v : List Char} (h : codeOkB v = true) :
    replace2 '\\' '"' ['"'] (escQuoteOnly v) = v := by
  induction v with
  | nil => rw [escQuoteOnly, replace2_nil]
  | cons c v' ih =>
    have hc := codeOkB_spec h c (by simp)
    have ih' := ih (codeOkB_tail h)
    rw [escQuoteOnly]
    by_cases hq : c = '"'
    · rw [if_pos hq, List.cons_append, List.cons_append, List.nil_append,
        replace2_hit, ih', hq]
      rfl
    · rw [if_neg hq, List.cons_append, List.nil_append,
        replace2_cons_ne _ _ hc.1, ih']

theorem escQuoteOnly_no_bs_free {v : List Char} (h : codeOkB v = true) :
    ∀ c ∈ v, ¬c = '\\' := fun c hc => (codeOkB_spec h c hc).1

theorem decode_escape {v : List Char} (h : codeOkB v = true) :
    decodeP5 (jsonEscape v) = v := by
  rw [decodeP5, r2n_escape h, r2q_escQuoteOnly h,
    replace2_id _ v (escQuoteOnly_no_bs_free h),
    replace2_id _ v (escQuoteOnly_no_bs_free h)]

theorem mkh_name_mismatch {key name z : List Char} (hknq : ∀ c ∈ key, c ≠ '"')
    (hnm : ∀ c ∈ name, c ≠ '"') (hne : key ≠ name) :
    matchKeyHead key ('"' :: (name ++ '"' :: z)) = none := by
  rcases hm : matchKeyHead key ('"' :: (name ++ '"' :: z)) with _ | x
  · rfl
  exfalso
  have hp := mkh_pat_pref hm
  rw [List.cons_append, List.cons_prefix_cons] at hp
  exact hne (pref_key_quote key name z hknq hnm hp.2)

theorem mkh_value_stop {key val rest : List Char} (hknq : ∀ c ∈ key, c ≠ '"')
    (hvq : ∀ c ∈ val, c ≠ '"') :
    matchKeyHead key ('"' :: (val ++ '"' :: ',' :: rest)) = none := by
  by_cases hkv : key = val
  · subst hkv
    have hshape : ('"' :: (key ++ '"' :: ',' :: rest))
        = ('"' :: key ++ ['"']) ++ ',' :: rest := by simp
    rw [matchKeyHead, hshape,
      if_pos (by rw [prefOfIff]; exact prefApp _ _)]
    rw [show key.length + 2 = ('"' :: key ++ ['"']).length by simp, List.drop_left]
    rw [List.dropWhile_cons, if_neg (by decide)]
    dsimp only
    rw [if_neg (by decide)]
  · rcases hm : matchKeyHead key ('"' :: (val ++ '"' :: ',' :: rest)) with _ | x
    · rfl
    exfalso
    have hp := mkh_pat_pref hm
    rw [List.cons_append, List.cons_prefix_cons] at hp
    exact hkv (pref_key_quote key val _ hknq hvq hp.2)

theorem scan_skip_sect {key name val rest : List Char}
    (hk : goodKeyB key = true)
    {f : List Char → Option (List Char)}
    (hf : ∀ s, matchKeyHead key s = none → f s = none)
    (hnm : ∀ c ∈ name, c ≠ '"')
    (hvq : ∀ c ∈ val, c ≠ '"')
    (hne : key ≠ name) :
    scanSuffixes f (patShape name [] [] (val ++ '"' :: ',' :: rest))
      = scanSuffixes f rest := by
  obtain ⟨hknil, hall⟩ := goodKey_spec hk
  have hknq : ∀ c ∈ key, c ≠ '"' := fun c hc => (hall c hc).1
  have hfhead : ∀ (c : Char) (s : List Char), c ≠ '"' → f (c :: s) = none :=
    fun c s hc => hf _ (mkh_not_quote key s hc)
  have hps : patShape name [] [] (val ++ '"' :: ',' :: rest)
      = '"' :: (name ++ '"' :: ':' :: '"' :: (val ++ '"' :: ',' :: rest)) := by
    rw [patShape]; simp
  rw [hps]
  rw [scan_cons_none (hf _ (mkh_name_mismatch hknq hnm hne))]
  rw [scan_skip hfhead name _ hnm]
  obtain ⟨k0, ks, hkey⟩ := List.exists_cons_of_ne_nil hknil
  have hk0c : ¬k0 = ':' := (hall k0 (by rw [hkey]; simp)).2.2.1
  have hk0m : ¬k0 = ',' := (hall k0 (by rw [hkey]; simp)).2.2.2.1
  rw [scan_cons_none (hf _ (mkh_quote_head_ne _ hknil
    (fun ks' h => hk0c (by rw [hkey] at h; exact (List.cons.inj h).1))))]
  rw [scan_cons_none (hfhead ':' _ (by decide))]
  rw [scan_cons_none (hf _ (mkh_value_stop hknq hvq))]
  rw [scan_skip hfhead val _ hvq]
  rw [scan_cons_none (hf _ (mkh_quote_head_ne _ hknil
    (fun ks' h => hk0m (by rw [hkey] at h; exact (List.cons.inj h).1))))]
  rw [scan_cons_none (hfhead ',' _ (by decide))]

theorem strictFind_encodeObj {v1 v2 v3 : List Char}
    (h1 : plainB v1 = true) (h2 : plainB v2 = true) (h3 : codeOkB v3 = true) :
    strictFind mKeyL (encodeObj v1 v2 v3) = some v1 ∧
    strictFind rKeyL (encodeObj v1 v2 v3) = some v2 ∧
    strictFind pKeyL (encodeObj v1 v2 v3) = some (jsonEscape v3) := by
  have he1 := plain_escape_id h1
  have he2 := plain_escape_id h2
  rw [encodeObj, he1, he2]
  refine ⟨?_, ?_, ?_⟩
  · rw [strictFind, scan_cons_none (strictAt_none_head mKeyL _ (by decide))]
    exact scan_head_some
      (@strictAt_patShape [] [] v1 mKeyL _ rfl rfl (plain_isRun h1))
  · rw [strictFind, scan_cons_none (strictAt_none_head rKeyL _ (by decide))]
    rw [scan_skip_sect (by decide) (fun s hs => strictAt_none_of_mkh hs)
      (by decide) (plain_noQuote h1) (by decide)]
    exact scan_head_some
      (@strictAt_patShape [] [] v2 rKeyL _ rfl rfl (plain_isRun h2))
  · rw [strictFind, scan_cons_none (strictAt_none_head pKeyL _ (by decide))]
    rw [scan_skip_sect (by decide) (fun s hs => strictAt_none_of_mkh hs)
      (by decide) (plain_noQuote h1) (by decide)]
    rw [scan_skip_sect (by decide) (fun s hs => strictAt_none_of_mkh hs)
      (by decide) (plain_noQuote h2) (by decide)]
    exact scan_head_some
      (@strictAt_patShape [] [] (jsonEscape v3) pKeyL _ rfl rfl (escape_isRun h3))

theorem parse_fields (s : List Char) :
    (parsePartialJson s).mutationName = extract mKeyL s ∧
    (parsePartialJson s).reasoning = extract rKeyL s ∧
    (parsePartialJson s).p5Code
      = (if extract pKeyL s = [] then [] else decodeP5 (extract pKeyL s)) :=
  ⟨rfl, rfl, rfl⟩

theorem cacheStep_nonempty {v : List Char} (cache : List Char) (h : ¬v = []) :
    cacheStep cache v = (v, v) := by
  rw [cacheStep]
  simp [h]

theorem cacheStep_empty (cache : List Char) : cacheStep cache [] = (cache, cache) := by
  rw [cacheStep]
  simp

theorem cacheStep_display_eq (cache v : List Char) :
    (cacheStep cache v).2 = (cacheStep cache v).1 := by
  by_cases hv : v = [] <;> simp [cacheStep, hv]

theorem cacheStep_cache_ne {cache : List Char} (v : List Char) (h : cache ≠ []) :
    (cacheStep cache v).1 ≠ [] := by
  by_cases hv : v = []
  · rw [hv, cacheStep_empty]
    exact h
  · rw [cacheStep_nonempty cache hv]
    exact hv

theorem runDisplays_all_ne :
    ∀ (vs : List (List Char)) (cache : List Char), cache ≠ [] →
      ∀ d ∈ runDisplays cache vs, d ≠ [] := by
  intro vs
  induction vs with
  | nil => intro cache _ d hd; simp [runDisplays] at hd
  | cons v vs' ih =>
    intro cache hc d hd
    rw [runDisplays] at hd
    rcases List.mem_cons.mp hd with h1 | h1
    · rw [h1, cacheStep_display_eq]
      exact cacheStep_cache_ne v hc
    · exact ih _ (cacheStep_cache_ne v hc) d h1

theorem foldCache_cons (cache v : List Char) (vs : List (List Char)) :
    foldCache cache (v :: vs) = foldCache (cacheStep cache v).1 vs := rfl

theorem runDisplays_append :
    ∀ (vs1 : List (List Char)) (cache : List Char) (vs2 : List (List Char)),
      runDisplays cache (vs1 ++ vs2)
        = runDisplays cache vs1 ++ runDisplays (foldCache cache vs1) vs2 := by
  intro vs1
  induction vs1 with
  | nil => intro cache vs2; rfl
  | cons v vs1' ih =>
    intro cache vs2
    rw [List.cons_append, runDisplays, runDisplays, ih, foldCache_cons]
    rfl

/-- C2: when pass 1 (the strict regex) finds no terminated string for a
field but the key/colon/opening-quote pattern is present with the value
running to the end of the buffer, the field's raw value is that
run-to-end, still JSON-escaped (first conjunct); and when neither pass
matches, the field's raw value is the empty string (second conjunct);
moreover every pass-2 capture really is a run-to-end following the
pattern (third conjunct, soundness). -/
theorem c2_loose_pass (key : List Char) :
    (∀ pre ws1 ws2 v : List Char, allWsB ws1 = true → allWsB ws2 = true →
      isRunB v = true →
      strictFind key (pre ++ patShape key ws1 ws2 v) = none →
      extract key (pre ++ patShape key ws1 ws2 v) = v) ∧
    (∀ s : List Char, strictFind key s = none → looseFind key s = none →
      extract key s = []) ∧
    (∀ s v : List Char, strictFind key s = none → looseFind key s = some v →
      extract key s = v ∧ ∃ pre ws1 ws2, allWsB ws1 = true ∧ allWsB ws2 = true ∧
        IsRun v ∧ s = pre ++ patShape key ws1 ws2 v) := by
  refine ⟨?_, ?_, ?_⟩
  · intro pre ws1 ws2 v hw1 hw2 hv hstrict
    exact extract_loose hstrict (looseFind_patShape hw1 hw2 (isRun_of_isRunB v hv))
  · intro s h1 h2
    exact extract_empty h1 h2
  · intro s v h1 h2
    refine ⟨extract_loose h1 h2, ?_⟩
    obtain ⟨t, ht, hlt⟩ := scan_sound h2
    obtain ⟨ws1, ws2, hw1, hw2, hrun, hts⟩ := looseAt_sound hlt
    rcases ht with ⟨pre, hpre⟩
    exact ⟨pre, ws1, ws2, hw1, hw2, hrun, by rw [← hpre, hts]⟩

/-- C2 witness: concrete scenario A of the spec, on the buffer that is
an opening brace followed by "title":"Hi — pass 1 fails and pass 2
returns Hi. -/
theorem c2_loose_pass_witness :
    extract "title".toList ("\x7b\"title\":\"Hi".toList) = "Hi".toList := by
  have h := (c2_loose_pass "title".toList).1 ['\x7b'] [] [] "Hi".toList rfl rfl
    (by decide) (by decide)
  rw [show (['\x7b'] ++ patShape "title".toList [] [] "Hi".toList)
      = "\x7b\"title\":\"Hi".toList from by decide] at h
  exact h

/-- C3: a buffer containing the pattern "name", optional white space, a
colon, optional white space and a properly terminated double-quoted
string literal gives a pass-1 match (second conjunct, completeness), the
pass-1 capture takes precedence over pass 2 and really is such a
terminated run with escapes still encoded (first conjunct, soundness and
precedence: extract returns the pass-1 capture whenever pass 1
matches, no matter what pass 2 would say). -/
theorem c3_strict_pass (key : List Char) :
    (∀ s v : List Char, strictFind key s = some v → extract key s = v ∧
      ∃ pre ws1 ws2 suf, allWsB ws1 = true ∧ allWsB ws2 = true ∧ IsRun v ∧
        s = pre ++ patShape key ws1 ws2 (v ++ '"' :: suf)) ∧
    (∀ pre ws1 ws2 v suf : List Char, allWsB ws1 = true → allWsB ws2 = true →
      isRunB v = true →
      ∃ v', strictFind key (pre ++ patShape key ws1 ws2 (v ++ '"' :: suf)) = some v' ∧
        extract key (pre ++ patShape key ws1 ws2 (v ++ '"' :: suf)) = v') := by
  constructor
  · intro s v h
    refine ⟨extract_strict h, ?_⟩
    obtain ⟨t, ht, hst⟩ := scan_sound h
    obtain ⟨ws1, ws2, suf, hw1, hw2, hrun, hts⟩ := strictAt_sound hst
    rcases ht with ⟨pre, hpre⟩
    exact ⟨pre, ws1, ws2, suf, hw1, hw2, hrun, by rw [← hpre, hts]⟩
  · intro pre ws1 ws2 v suf hw1 hw2 hv
    obtain ⟨v', hv'⟩ := scan_some_of_suffix
      (@strictAt_patShape ws1 ws2 v key suf hw1 hw2 (isRun_of_isRunB v hv))
      (pre ++ patShape key ws1 ws2 (v ++ '"' :: suf)) (List.suffix_append _ _)
    exact ⟨v', hv', extract_strict hv'⟩

/-- C3 witness: concrete scenario B of the spec on the complete buffer
holding title Hi and body ok: both fields are closed-string pass-1
matches and extract returns Hi and ok. -/
theorem c3_strict_pass_witness :
    extract "title".toList ("\x7b\"title\":\"Hi\",\"body\":\"ok\"\x7d".toList)
        = "Hi".toList ∧
    extract "body".toList ("\x7b\"title\":\"Hi\",\"body\":\"ok\"\x7d".toList)
        = "ok".toList := by
  constructor
  · obtain ⟨v', h1, h2⟩ := (c3_strict_pass "title".toList).2 ['\x7b'] [] [] "Hi".toList
      (',' :: "\"body\":\"ok\"\x7d".toList) rfl rfl (by decide)
    rw [show (['\x7b'] ++ patShape "title".toList [] []
        ("Hi".toList ++ '"' :: ',' :: "\"body\":\"ok\"\x7d".toList))
        = "\x7b\"title\":\"Hi\",\"body\":\"ok\"\x7d".toList from by decide] at h1 h2
    have hv : v' = "Hi".toList := by
      rw [show strictFind "title".toList
          ("\x7b\"title\":\"Hi\",\"body\":\"ok\"\x7d".toList) = some "Hi".toList
        from by decide] at h1
      exact (Option.some.inj h1).symm
    rw [← hv]
    exact h2
  · obtain ⟨v', h1, h2⟩ := (c3_strict_pass "body".toList).2
      ("\x7b\"title\":\"Hi\",".toList) [] [] "ok".toList ['\x7d'] rfl rfl (by decide)
    rw [show ("\x7b\"title\":\"Hi\",".toList ++ patShape "body".toList [] []
        ("ok".toList ++ '"' :: ['\x7d']))
        = "\x7b\"title\":\"Hi\",\"body\":\"ok\"\x7d".toList from by decide] at h1 h2
    have hv : v' = "ok".toList := by
      rw [show strictFind "body".toList
          ("\x7b\"title\":\"Hi\",\"body\":\"ok\"\x7d".toList) = some "ok".toList
        from by decide] at h1
      exact (Option.some.inj h1).symm
    rw [← hv]
    exact h2

/-- C4: the extractor never fails: on the empty buffer every field is
the empty string (first conjunct); whenever neither pass matches, the
result is the empty string, never an error value (second conjunct); and
a buffer ending exactly at a field's opening quote yields the empty
string for that field (third conjunct, for any prefix and any white
space around the colon, provided pass 1 finds nothing). -/
theorem c4_total (key : List Char) :
    parsePartialJson [] = ⟨[], [], []⟩ ∧
    (∀ s : List Char, strictFind key s = none → looseFind key s = none →
      extract key s = []) ∧
    (∀ pre ws1 ws2 : List Char, allWsB ws1 = true → allWsB ws2 = true →
      strictFind key (pre ++ patShape key ws1 ws2 []) = none →
      extract key (pre ++ patShape key ws1 ws2 []) = []) := by
  refine ⟨by decide, ?_, ?_⟩
  · intro s h1 h2
    exact extract_empty h1 h2
  · intro pre ws1 ws2 hw1 hw2 hstrict
    exact extract_loose hstrict (looseFind_patShape hw1 hw2 IsRun.nil)

/-- C4 witness: the boundary cases of the spec evaluated concretely: the
empty buffer, and the buffer that ends exactly at the opening quote of
mutationName. -/
theorem c4_total_witness :
    extract "mutationName".toList ("\x7b\"mutationName\":\"".toList) = [] ∧
    parsePartialJson [] = ⟨[], [], []⟩ := by
  constructor
  · have h := (c4_total "mutationName".toList).2.2 ['\x7b'] [] [] rfl rfl (by decide)
    rw [show (['\x7b'] ++ patShape "mutationName".toList [] [] [])
        = "\x7b\"mutationName\":\"".toList from by decide] at h
    exact h
  · exact (c4_total []).1

/-- C5 (amended): for a single configured field streamed through the
canonical growing buffer, every snapshot of the raw extraction is either
exactly the so-far-received portion of the value or the empty string
(first conjunct), hence always a prefix of the final value (second
conjunct), and the final complete buffer extracts the full value (third
conjunct).  This is the prefix-consistency that actually holds: it is
stated for the raw captures, because the decoded p5Code field violates
the claim as written (see the counterexample). -/
theorem c5_prefix_consistent {key v : List Char} (hk : goodKeyB key = true)
    (hv : isRunB v = true) :
    (∀ n : Nat, extract key (streamBuf key (v.take n)) = v.take n ∨
      extract key (streamBuf key (v.take n)) = []) ∧
    (∀ n : Nat, (extract key (streamBuf key (v.take n))).isPrefixOf v = true) ∧
    extract key (streamBuf key v ++ '"' :: ['\x7d']) = v := by
  have hrun := isRun_of_isRunB v hv
  refine ⟨fun n => extract_streamBuf_take hk hrun n, fun n => ?_,
    extract_streamBuf_final hrun⟩
  rcases extract_streamBuf_take hk hrun n with h | h <;> rw [h]
  · rw [prefOfIff]
    exact takePre n v
  · rw [prefOfIff]
    exact nilPre _

/-- C5 witness: the amended statement instantiated at the field p5Code
and the value a backslash-n b (a four-character token run): the
complete buffer extracts it back, and the snapshot that cuts the
buffer right after the backslash degrades to the empty string while the
aligned snapshots return exactly the received prefix. -/
theorem c5_prefix_consistent_witness :
    extract "p5Code".toList
      (streamBuf "p5Code".toList ['a', '\\', 'n', 'b'] ++ '"' :: ['\x7d'])
      = ['a', '\\', 'n', 'b'] :=
  (c5_prefix_consistent (by decide) (by decide)).2.2

/-- C5 counterexample: the claim as stated fails on the code field.  The
buffer stream below consists of growing prefixes of the well-formed
object whose p5Code value is the four characters a backslash t b (shown
by the jsonEscape equation).  A non-empty value a appears at the first
snapshot, yet the later snapshot ending after backslash backslash t
yields a two-spaces decoding that is both shorter than the final
correct decoded value and not a prefix of it. -/
theorem c5_counterexample :
    ("\x7b\"p5Code\":\"a".toList).isPrefixOf ("\x7b\"p5Code\":\"a\\\\t".toList) = true ∧
    ("\x7b\"p5Code\":\"a\\\\t".toList).isPrefixOf
      ("\x7b\"p5Code\":\"a\\\\tb\"\x7d".toList) = true ∧
    "\x7b\"p5Code\":\"a\\\\tb\"\x7d".toList
      = '\x7b' :: patShape "p5Code".toList [] []
          (jsonEscape ['a', '\\', 't', 'b'] ++ '"' :: ['\x7d']) ∧
    (parsePartialJson ("\x7b\"p5Code\":\"a".toList)).p5Code = ['a'] ∧
    ['a'] ≠ [] ∧
    (parsePartialJson ("\x7b\"p5Code\":\"a\\\\t".toList)).p5Code = ['a', ' ', ' '] ∧
    (['a', ' ', ' '] : List Char).length < (['a', '\\', 't', 'b'] : List Char).length ∧
    (['a', ' ', ' '] : List Char).isPrefixOf ['a', '\\', 't', 'b'] = false := by
  exact ⟨by decide, by decide, by decide, by decide, by decide, by decide,
    by decide, by decide⟩

/-- C8 (amended): a buffer ending mid-escape with a dangling unescaped
backslash inside a field's value makes both passes fail, so the field's
value for that snapshot is the empty string: the extractor does not
expose the dangling backslash, nor any part of the value, until more
input arrives. -/
theorem c8_dangling_backslash {key v : List Char} (hk : goodKeyB key = true)
    (hv : isRunB v = true) :
    extract key (streamBuf key (v ++ ['\\'])) = [] :=
  extract_streamBuf_bs hk (isRun_of_isRunB v hv)

/-- C8 witness: the spec's own example, the buffer opening brace
"title":"abc backslash, evaluates to the empty string. -/
theorem c8_dangling_backslash_witness :
    extract "title".toList (streamBuf "title".toList ("abc".toList ++ ['\\'])) = [] :=
  c8_dangling_backslash (by decide) (by decide)

/-- C8 counterexample: the claim as stated says the returned value
reflects the content before the dangling backslash (here abc) or
includes the backslash literally (abc backslash); the code instead
returns the empty string on exactly the spec's example buffer. -/
theorem c8_counterexample :
    extract "title".toList ("\x7b\"title\":\"abc\\".toList) = [] ∧
    ([] : List Char) ≠ "abc".toList ∧
    ([] : List Char) ≠ "abc\\".toList := by
  exact ⟨by decide, by decide, by decide⟩

/-- C1 (amended): the round-trip property holds exactly on the domain
where the implementation's quirks cannot fire: if the mutationName and
reasoning values need no JSON escaping at all (parsePartialJson returns
them raw, so any escape would stay encoded) and the p5Code value
contains no backslash, no tab and no carriage return (the decoding
chain misorders backslash unescaping and turns backslash-t into two
spaces), then encoding the three values into a complete well-formed
JSON object and parsing it returns exactly the three values; p5Code may
contain double quotes and newlines. -/
theorem c1_round_trip {v1 v2 v3 : List Char} (h1 : plainB v1 = true)
    (h2 : plainB v2 = true) (h3 : codeOkB v3 = true) :
    parsePartialJson (encodeObj v1 v2 v3) = ⟨v1, v2, v3⟩ := by
  obtain ⟨hm, hr, hp⟩ := strictFind_encodeObj h1 h2 h3
  have e1 : extract mKeyL (encodeObj v1 v2 v3) = v1 := extract_strict hm
  have e2 : extract rKeyL (encodeObj v1 v2 v3) = v2 := extract_strict hr
  have e3 : extract pKeyL (encodeObj v1 v2 v3) = jsonEscape v3 := extract_strict hp
  obtain ⟨f1, f2, f3⟩ := parse_fields (encodeObj v1 v2 v3)
  have hp5 : (parsePartialJson (encodeObj v1 v2 v3)).p5Code = v3 := by
    rw [f3, e3]
    by_cases hv3 : v3 = []
    · subst hv3
      rfl
    · rw [if_neg (escape_ne_nil hv3), decode_escape h3]
  cases hres : parsePartialJson (encodeObj v1 v2 v3) with
  | mk a b c =>
    rw [hres] at f1 f2 hp5
    dsimp only at f1 f2 hp5
    simp only [ParseResult.mk.injEq]
    exact ⟨f1.trans e1, f2.trans e2, hp5⟩

/-- C1 witness: the amended round trip evaluated at mutationName Alpha,
reasoning why, and a p5Code value that contains both a double quote and
a real newline. -/
theorem c1_round_trip_witness :
    parsePartialJson
        (encodeObj "Alpha".toList "why".toList ['x', '"', 'y', '\n', 'z'])
      = ⟨"Alpha".toList, "why".toList, ['x', '"', 'y', '\n', 'z']⟩ :=
  c1_round_trip (by decide) (by decide) (by decide)

/-- C1 counterexample: the claim as stated fails on values that need
escaping: a mutationName containing a double quote comes back with the
escape still encoded, and a p5Code containing a tab comes back as two
spaces. -/
theorem c1_counterexample :
    (parsePartialJson (encodeObj ['a', '"', 'b'] ['r'] ['c'])).mutationName
        = ['a', '\\', '"', 'b'] ∧
    ['a', '\\', '"', 'b'] ≠ ['a', '"', 'b'] ∧
    (parsePartialJson (encodeObj ['x'] ['r'] ['a', '\t', 'b'])).p5Code
        = ['a', ' ', ' ', 'b'] ∧
    ['a', ' ', ' ', 'b'] ≠ ['a', '\t', 'b'] := by
  exact ⟨by decide, by decide, by decide, by decide⟩

/-- C6: the p5Code decoding performs exactly the four replacements in
exactly the order of the spec (backslash n to newline, then backslash
quote to quote, then double backslash to backslash, then backslash t to
two spaces): the source chain coincides with the chain transcribed from
the spec's words (first conjunct), and consequently the scenario-C
buffer decodes to the two lines separated by a real newline, both
through the fixed p5Code field and through a generic code field. -/
theorem c6_decode_chain :
    (∀ raw : List Char, decodeP5 raw = decodeOrderSpec raw) ∧
    (parsePartialJson ("\x7b\"p5Code\":\"line1\\nline2\"\x7d".toList)).p5Code
        = "line1\nline2".toList ∧
    decodeP5 (extract "code".toList ("\x7b\"code\":\"line1\\nline2\"\x7d".toList))
        = "line1\nline2".toList := by
  refine ⟨fun raw => rfl, by decide, by decide⟩

/-- C7: the decoding order is not the inverse of JSON string escaping:
the correct JSON encoding of a literal backslash followed by the letter
n is backslash backslash n, but because the chain replaces backslash n
before collapsing double backslashes, the decoded result is a backslash
followed by a real newline instead of backslash and the letter n; the
full pipeline on a buffer holding a backslash-backslash-n inside the
p5Code value shows the newline where the letter n should appear. -/
theorem c7_misdecoded_backslash :
    jsonEscape ['\\', 'n'] = ['\\', '\\', 'n'] ∧
    decodeP5 ['\\', '\\', 'n'] = ['\\', '\n'] ∧
    ['\\', '\n'] ≠ ['\\', 'n'] ∧
    (parsePartialJson ("\x7b\"p5Code\":\"a\\\\nb\"\x7d".toList)).p5Code
        = ['a', '\\', '\n', 'b'] ∧
    '\n' ∈ (parsePartialJson ("\x7b\"p5Code\":\"a\\\\nb\"\x7d".toList)).p5Code := by
  exact ⟨by decide, by decide, by decide, by decide, by decide⟩

/-- C9: the two fields displayed verbatim by the UI, mutationName and
reasoning, are returned raw by parsePartialJson: on a complete
well-formed buffer whose mutationName contains an escaped quote and an
escaped newline and whose reasoning contains an escaped newline, the
returned values still hold the two-character escape sequences, not the
decoded quote and newline the spec requires for display fields. -/
theorem c9_display_fields_raw :
    (parsePartialJson
        ("\x7b\"mutationName\":\"a\\\"b\\nc\",\"reasoning\":\"x\\ny\",\"p5Code\":\"z\"\x7d".toList)).mutationName
        = "a\\\"b\\nc".toList ∧
    "a\\\"b\\nc".toList ≠ "a\"b\nc".toList ∧
    (parsePartialJson
        ("\x7b\"mutationName\":\"a\\\"b\\nc\",\"reasoning\":\"x\\ny\",\"p5Code\":\"z\"\x7d".toList)).reasoning
        = "x\\ny".toList ∧
    "x\\ny".toList ≠ "x\ny".toList := by
  exact ⟨by decide, by decide, by decide, by decide⟩

/-- C10: the last-good-value cache satisfies the step invariant: a
non-empty newly computed value overwrites the cache and is displayed
(first conjunct); an empty newly computed value leaves the cache and
displays it (second conjunct); the display trace decomposes around any
update (third conjunct); and once the displayed value is non-empty,
every later display in the session is non-empty — the displayed code
never reverts from non-empty to empty (fourth conjunct). -/
theorem c10_cache_invariant :
    (∀ cache v : List Char, ¬v = [] → cacheStep cache v = (v, v)) ∧
    (∀ cache : List Char, cacheStep cache [] = (cache, cache)) ∧
    (∀ (cache : List Char) (vs1 : List (List Char)) (v : List Char)
        (vs2 : List (List Char)),
      runDisplays cache (vs1 ++ v :: vs2)
        = runDisplays cache vs1
          ++ (cacheStep (foldCache cache vs1) v).2
            :: runDisplays (cacheStep (foldCache cache vs1) v).1 vs2) ∧
    (∀ (cache : List Char) (vs1 : List (List Char)) (v : List Char)
        (vs2 : List (List Char)),
      (cacheStep (foldCache cache vs1) v).2 ≠ [] →
      ∀ d ∈ runDisplays (cacheStep (foldCache cache vs1) v).1 vs2, d ≠ []) := by
  refine ⟨fun cache v hv => cacheStep_nonempty cache hv, cacheStep_empty, ?_, ?_⟩
  · intro cache vs1 v vs2
    rw [runDisplays_append, runDisplays]
  · intro cache vs1 v vs2 hd
    rw [cacheStep_display_eq] at hd
    exact runDisplays_all_ne vs2 _ hd

/-- C10 witness: one overwrite step, and a session in which the code
value appears at the second update: all later displays, including one
produced from an empty parse, stay non-empty. -/
theorem c10_cache_invariant_witness :
    cacheStep "old".toList "new".toList = ("new".toList, "new".toList) ∧
    "code".toList ≠ ([] : List Char) ∧
    "mo".toList ≠ ([] : List Char) := by
  refine ⟨c10_cache_invariant.1 "old".toList "new".toList (by decide), ?_, ?_⟩
  · exact c10_cache_invariant.2.2.2 [] [[]] "code".toList [[], "mo".toList]
      (by decide) "code".toList (by decide)
  · exact c10_cache_invariant.2.2.2 [] [[]] "code".toList [[], "mo".toList]
      (by decide) "mo".toList (by decide)
